import Mathlib

/-!
# Verification of the PyPhil name/namespace algebra

A shallow embedding of the PyPhil core (pipe-delimited `Name` paths,
colon-delimited `Namespace` paths, the slot-based and no-op naming
conventions, and the naming-convention scope mechanism) together with
proofs and refutations of the specified properties.

Python strings are modelled as `List Char` (`PyStr`); `None`-able values
as `Option`; raising operations return `Except PyErr`.  Global mutable
state (the active naming convention, the lazily memoised fields of
`Namespace` objects) is modelled by explicit state passing.
-/

deriving instance DecidableEq for Except

namespace PyPhil

/-- Model of a Python string: a list of characters. -/
abbrev PyStr := List Char

/-- Convenience injection of Lean string literals into the model. -/
def pystr (s : String) : PyStr := s.data

/-- Identity of a naming-convention singleton.  Python compares
conventions by object identity (`NamingConvention` defines no `__eq__`);
`dummy n` stands for further anonymous `NamingConvention()` instances. -/
inductive ConvId where
  | noConv : ConvId
  | sbConv : ConvId
  | dummy : Nat → ConvId
deriving DecidableEq

/-- The Python exceptions raised by the modelled code.
`attributeError` is a plain `AttributeError` carrying no convention or
component payload (a failed attribute lookup). -/
inductive PyErr where
  | valueError : PyErr
  | attributeError : PyErr
  | notImplemented : PyErr
  | runtimeError : PyErr
  | indexError : PyErr
deriving DecidableEq

/-- `raise UnknownComponentError(convention, components)` as the source
actually executes it.  `UnknownComponentError.__init__`
(src/scripts/pyphil/errors.py lines 48-66) first rejects an empty
component list with `ValueError` (line 52); a bare component is wrapped
into a singleton list.  It then unconditionally evaluates
`convention.isNoConvention()` (line 63) — a method that NO class in the
repository defines (only test_none.py asserts its existence) — so the
attribute lookup raises a payload-free `AttributeError` inside the
constructor and the intended exception, which would have carried the
`convention` and `components` attributes, is never created.  Every raise
site of `UnknownComponentError` therefore escapes with
`.attributeError`. -/
def mkUnknownErr (_conv : ConvId) (comps : List PyStr) : PyErr :=
  if comps = [] then .valueError else .attributeError

/-- Python `str.lower()` restricted to the ASCII names the library uses. -/
def lowerStr (s : PyStr) : PyStr := s.map Char.toLower

/-- Python `s.endswith(t)`: `t` is a suffix of `s`. -/
def endsWithPy (s t : PyStr) : Bool := s.drop (s.length - t.length) = t

/-- Did the modelled Python computation finish without raising? -/
def exceptOk {α : Type} : Except PyErr α → Bool
  | .ok _ => true
  | .error _ => false

/-! ## The slot-based convention (src/scripts/pyphil/convention/sb.py)

`SBName._sides`, `_modules` and `_types` are the lowercase versions of
`SBConvention.sides`, `modules` and `types`; `_hardTypes` are the
lowercase types containing an underscore, longest first. -/

/-- `SBConvention.sides` (sb.py line 41). -/
def sbSides : List PyStr := [pystr "R", pystr "L", pystr "C", pystr "T", pystr "B"]

def sbSidesLow : List PyStr := [pystr "r", pystr "l", pystr "c", pystr "t", pystr "b"]

def sbModulesLow : List PyStr :=
  [pystr "arm", pystr "leg", pystr "spine", pystr "neck",
   pystr "head", pystr "tail", pystr "hand", pystr "foot"]

def sbTypesLow : List PyStr :=
  [pystr "bls", pystr "ctrl", pystr "fk_ctrl", pystr "fol", pystr "geo",
   pystr "grp", pystr "ik_ctrl", pystr "jnt", pystr "msh", pystr "loc",
   pystr "pin", pystr "srf"]

/-- The `<type>` values containing `'_'`, sorted by length descending
(both have length 7, so the relative order is immaterial for the
suffix test). -/
def sbHardTypes : List PyStr := [pystr "fk_ctrl", pystr "ik_ctrl"]

/-- Result of the hard-type scan at the top of `SBName._decompose`. -/
inductive HardScan where
  | onlyType : HardScan
  | found : PyStr → PyStr → HardScan
  | noMatch : HardScan
deriving DecidableEq

/-- The `for t in SBName._hardTypes` loop of `SBName._decompose`
(sb.py lines 157-165): the first hard type that is a suffix of the
lowercased name either consumes the whole name (`onlyType`), or — when
preceded by `'_'` — splits the name just before it (`found before type`);
otherwise the scan continues. -/
def scanHardTypes (name : PyStr) : List PyStr → HardScan
  | [] => .noMatch
  | t :: ts =>
    if endsWithPy (lowerStr name) t then
      if name.length = t.length then .onlyType
      else if name[name.length - t.length - 1]? = some '_' then
        .found (name.take (name.length - t.length - 1)) (name.drop (name.length - t.length))
      else scanHardTypes name ts
    else scanHardTypes name ts

/-- Helper for `str.rpartition("_")`: locates the last underscore,
returning the parts before and after it. -/
def rpartAux : PyStr → Option (PyStr × PyStr)
  | [] => none
  | c :: rest =>
    match rpartAux rest with
    | some (p, t) => some (c :: p, t)
    | none => if c = '_' then some ([], rest) else none

/-- Python `name.rpartition("_")` (sb.py line 167). -/
def rpartitionUnder (s : PyStr) : PyStr × PyStr × PyStr :=
  match rpartAux s with
  | some (p, t) => (p, pystr "_", t)
  | none => ([], [], s)

/-- Splits off the part of `s` before the first occurrence of `sep`,
returning `none` as remainder when `sep` does not occur. -/
def splitOnceChar (sep : Char) : PyStr → PyStr × Option PyStr
  | [] => ([], none)
  | c :: rest =>
    if c = sep then ([], some rest)
    else
      let (p, r) := splitOnceChar sep rest
      (c :: p, r)

/-- Python `s.split(sep, n)`: split on `sep` at most `n` times. -/
def splitMax (sep : Char) : Nat → PyStr → List PyStr
  | 0, s => [s]
  | n + 1, s =>
    match splitOnceChar sep s with
    | (x, none) => [x]
    | (x, some rest) => x :: splitMax sep n rest

/-- Python `sep.join(parts)` for a one-character separator. -/
def joinSep (sep : Char) : List PyStr → PyStr
  | [] => []
  | [x] => x
  | x :: y :: rest => x ++ sep :: joinSep sep (y :: rest)

/-- The component record of an `SBName` (fields `_side`, `_module`,
`_basename`, `_desc`, `_type`; `none` models Python `None`). -/
structure SBComp where
  side : Option PyStr
  module : Option PyStr
  basename : Option PyStr
  desc : Option PyStr
  type : Option PyStr
deriving DecidableEq

/-- The `<basename>`/`<desc>` tail of the slow path of
`SBName._decompose` (sb.py lines 206-209).  `starts[0]` on an empty list
raises `IndexError` in Python; that is modelled as `.error .indexError`
(and proved unreachable below). -/
def sbBaseStep (side module : Option PyStr) (starts : List PyStr) (ty : Option PyStr) :
    Except PyErr SBComp :=
  match starts with
  | [] => .error .indexError
  | b :: rest =>
    .ok ⟨side, module, some b, if rest = [] then none else some (joinSep '_' rest), ty⟩

/-- The `<module>` test of the slow path (sb.py lines 199-204). -/
def sbModuleStep (side : Option PyStr) (starts : List PyStr) (ty : Option PyStr) :
    Except PyErr SBComp :=
  match starts with
  | [] => .error .indexError
  | s0 :: rest =>
    if lowerStr s0 ∈ sbModulesLow then
      match rest with
      | [] => .ok ⟨side, some s0, none, none, ty⟩
      | r0 :: rrest => sbBaseStep side (some s0) (r0 :: rrest) ty
    else sbBaseStep side none (s0 :: rest) ty

/-- The `<side>` test of the slow path (sb.py lines 192-197). -/
def sbSideStep (starts : List PyStr) (ty : Option PyStr) : Except PyErr SBComp :=
  match starts with
  | [] => .error .indexError
  | s0 :: rest =>
    if lowerStr s0 ∈ sbSidesLow then
      match rest with
      | [] => .ok ⟨some s0, none, none, none, ty⟩
      | r0 :: rrest => sbModuleStep (some s0) (r0 :: rrest) ty
    else sbModuleStep none (s0 :: rest) ty

/-- `SBName._decompose` after the `<type>` component has been split off
(sb.py lines 169-209): `name` is what remains, `semi` the separator
reported by the split (empty iff the name had no underscore at all) and
`ty` the candidate `<type>` value. -/
def sbAfterType (name : PyStr) (semi : PyStr) (ty : PyStr) : Except PyErr SBComp :=
  match splitMax '_' 3 name with
  | s0 :: s1 :: s2 :: rest =>
    .ok ⟨some s0, some s1, some s2, rest.head?, some ty⟩
  | starts =>
    let starts := if semi = [] then [] else starts
    if lowerStr ty ∈ sbTypesLow then
      if starts = [] then .ok ⟨none, none, none, none, some ty⟩
      else sbSideStep starts (some ty)
    else sbSideStep (starts ++ [ty]) none

/-- `SBName._decompose` (sb.py lines 144-209), as a function from the
stored name to the component record. -/
def sbDecomposeRun (name : PyStr) : Except PyErr SBComp :=
  match scanHardTypes name sbHardTypes with
  | .onlyType => .ok ⟨none, none, none, none, some name⟩
  | .found pre suf => sbAfterType pre (pystr "_") suf
  | .noMatch =>
    match rpartitionUnder name with
    | (p, semi, t) => sbAfterType p semi t

/-- An `SBName` object: `nameF` is the `_name` field (set when the
composition was created from a name by `SBConvention.decompose`),
`comps` the component fields (set when created by `compose`/`replace`). -/
structure SBName where
  nameF : Option PyStr
  comps : SBComp
deriving DecidableEq

/-- `SBConvention.decompose` (sb.py lines 49-54). -/
def sbDecompose (name : PyStr) : Except PyErr SBName :=
  if name = [] then .error .valueError
  else .ok ⟨some name, ⟨none, none, none, none, none⟩⟩

/-- The lazily computed component record of an `SBName`: names created
from a string are parsed by `_decompose` on first component access. -/
def SBName.compOf (n : SBName) : Except PyErr SBComp :=
  match n.nameF with
  | some s => sbDecomposeRun s
  | none => .ok n.comps

/-- `SBName.side` getter. -/
def SBName.sideGet (n : SBName) : Except PyErr (Option PyStr) :=
  n.compOf.map (·.side)

/-- `SBName.module` getter. -/
def SBName.moduleGet (n : SBName) : Except PyErr (Option PyStr) :=
  n.compOf.map (·.module)

/-- `SBName.basename` getter. -/
def SBName.basenameGet (n : SBName) : Except PyErr (Option PyStr) :=
  n.compOf.map (·.basename)

/-- `SBName.description` getter. -/
def SBName.descriptionGet (n : SBName) : Except PyErr (Option PyStr) :=
  n.compOf.map (·.desc)

/-- `SBName.type` getter. -/
def SBName.typeGet (n : SBName) : Except PyErr (Option PyStr) :=
  n.compOf.map (·.type)

/-- `SBName.name` (sb.py lines 215-229): a name created from a string
returns that string unchanged; otherwise the present components are
joined by underscores. -/
def SBName.nameGet (n : SBName) : PyStr :=
  match n.nameF with
  | some s => s
  | none =>
    joinSep '_'
      (([n.comps.side, n.comps.module, n.comps.basename, n.comps.desc, n.comps.type]).filterMap id)

/-! ## The no-op convention (src/scripts/pyphil/convention/none.py) -/

/-- A `NoComposition` object wraps the bare name. -/
structure NoComposition where
  nameF : PyStr
deriving DecidableEq

/-- `NoConvention.decompose` (none.py lines 33-37). -/
def noDecompose (name : PyStr) : Except PyErr NoComposition :=
  if name = [] then .error .valueError else .ok ⟨name⟩

/-- `NoConvention.compose` (none.py lines 39-42): zero components is a
`ValueError`; any component name is unknown and reaches a
`raise UnknownComponentError(...)` (whose construction fails, see
`mkUnknownErr`). -/
def noCompose (unsupported : List PyStr) : Except PyErr Unit :=
  if unsupported = [] then .error .valueError
  else .error (mkUnknownErr .noConv unsupported)

/-- `NoComposition.replace` (none.py lines 58-61). -/
def NoComposition.replaceF (c : NoComposition) (unsupported : List PyStr) :
    Except PyErr NoComposition :=
  if unsupported = [] then .ok c else .error (mkUnknownErr .noConv unsupported)

/-- Reading a component of a `NoComposition`.  none.py defines
`get_component` (snake case, lines 63-64), but callers dispatch on the
camel-case attribute `getComponent`; the lookup therefore finds the
base-class `NameComposition.getComponent` (core.py lines 197-207),
which raises `NotImplementedError`.  The snake-case method that would
raise `UnknownComponentError` is never invoked. -/
def NoComposition.getComponentF (_c : NoComposition) (_component : PyStr) :
    Except PyErr (Option PyStr) :=
  .error .notImplemented

/-! ## Remaining slot-based operations (src/scripts/pyphil/convention/sb.py) -/

/-- `SBConvention.compose` (sb.py lines 56-70): unknown keyword
components reach a `raise UnknownComponentError(...)` (whose
construction fails, see `mkUnknownErr`); each of `<side>`, `<module>`,
`<basename>` and `<type>` is required. -/
def sbCompose (side module basename desc type : Option PyStr) (unsupported : List PyStr) :
    Except PyErr SBName :=
  if unsupported ≠ [] then .error (mkUnknownErr .sbConv unsupported)
  else if side = none then .error .valueError
  else if module = none then .error .valueError
  else if basename = none then .error .valueError
  else if type = none then .error .valueError
  else .ok ⟨none, ⟨side, module, basename, desc, type⟩⟩

/-- `SBName.getComponent` (sb.py lines 262-275): dispatch through the
`_componentDispatch` table; unlisted names reach a
`raise UnknownComponentError(...)` (whose construction fails, see
`mkUnknownErr`). -/
def SBName.getComponentF (n : SBName) (component : PyStr) : Except PyErr (Option PyStr) :=
  if component = pystr "side" then n.sideGet
  else if component = pystr "module" then n.moduleGet
  else if component = pystr "basename" then n.basenameGet
  else if component = pystr "desc" then n.descriptionGet
  else if component = pystr "type" then n.typeGet
  else .error (mkUnknownErr .sbConv [component])

/-- `SBName.replace` (sb.py lines 251-260): unknown keyword components
reach a `raise UnknownComponentError(...)` (whose construction fails,
see `mkUnknownErr`); otherwise named slots are overridden and the rest
inherited from the (lazily decomposed) receiver. -/
def SBName.replaceF (n : SBName) (side module basename desc type : Option PyStr)
    (unsupported : List PyStr) : Except PyErr SBName :=
  if unsupported ≠ [] then .error (mkUnknownErr .sbConv unsupported)
  else
    match n.compOf with
    | .error e => .error e
    | .ok c =>
      .ok ⟨none,
        ⟨if side = none then c.side else side,
         if module = none then c.module else module,
         if basename = none then c.basename else basename,
         if desc = none then c.desc else desc,
         if type = none then c.type else type⟩⟩

/-! ## Naming-convention scopes (src/scripts/pyphil/convention/core.py)

The process-wide `NamingConvention._current` slot is modelled by explicit
state passing of the active `ConvId`. -/

/-- The fields of a `NamingConventionScope` after `__enter__`: `nc` is
the convention the scope installs, `prev` the convention that was active
when the scope was entered. -/
structure ScopeData where
  nc : ConvId
  prev : ConvId
deriving DecidableEq

/-- `NamingConventionScope.__enter__` (core.py lines 130-132): records
the active convention in `_prev` and installs `_nc`; returns the scope
record and the new active convention. -/
def enterScope (nc cur : ConvId) : ScopeData × ConvId := (⟨nc, cur⟩, nc)

/-- `NamingConventionScope.__exit__` (core.py lines 134-140): if the
active convention is not the one this scope installed, `RuntimeError`
is raised and the active convention is left unchanged; otherwise the
previous convention is restored. -/
def exitScope (sc : ScopeData) (cur : ConvId) : ConvId × Option PyErr :=
  if cur ≠ sc.nc then (cur, some .runtimeError)
  else (sc.prev, none)

/-! ## Name paths (src/scripts/pyphil/name.py)

A `Name` value is identified with its canonical string (`Name.str`);
`Name.__eq__` compares exactly those strings.  `Name.world` is the
reserved literal `"<world>"`. -/

/-- The `_emptyPattern` regex `(?:[|]|:)(?:[|]|\Z)` of name.py line 90:
does the string contain a `'|'` or `':'` that is immediately followed by
`'|'` or the end of the string? -/
def hasEmptyMatch : PyStr → Bool
  | [] => false
  | [c] => c = '|' || c = ':'
  | c :: d :: rest => ((c = '|' || c = ':') && d = '|') || hasEmptyMatch (d :: rest)

/-- The lookahead `(?=[^|:]*(\Z|\|))` of the `_rootNsPattern` regex
(name.py line 88): scanning forward, the first `'|'` or `':'` reached is
either absent (end of string) or a `'|'`. -/
def lookaheadNoColon : PyStr → Bool
  | [] => true
  | '|' :: _ => true
  | ':' :: _ => false
  | _ :: rest => lookaheadNoColon rest

/-- One position of the `_rootNsPattern` regex `^:|(?<=\|):(?=...)`:
`prev` is the character preceding the current position (`none` at the
start of the string). -/
def hasRootNsMarkerAux : Option Char → PyStr → Bool
  | _, [] => false
  | prev, c :: rest =>
    (c = ':' && (prev = none || (prev = some '|' && lookaheadNoColon rest)))
      || hasRootNsMarkerAux (some c) rest

/-- Does `_rootNsPattern` match somewhere in `s` (a superfluous root
namespace declaration)? -/
def hasRootNsMarker (s : PyStr) : Bool := hasRootNsMarkerAux none s

/-- `re.sub` for `_rootNsPattern`: every matching `':'` of `target` is
replaced by `repl`.  (`Name.sanitize` invokes this with the arguments
swapped, substituting inside the empty string.) -/
def rootNsSub (repl : PyStr) : Option Char → PyStr → PyStr
  | _, [] => []
  | prev, c :: rest =>
    if c = ':' && (prev = none || (prev = some '|' && lookaheadNoColon rest)) then
      repl ++ rootNsSub repl (some c) rest
    else
      c :: rootNsSub repl (some c) rest

/-- `Name.sanitize` (name.py lines 107-125).  The code ends with
`return _rootNsPattern.sub(name, "")`, i.e. `re.Pattern.sub(repl, string)`
with `repl = name` and `string = ""`: it substitutes inside the EMPTY
string and therefore returns `""` for every accepted input. -/
def sanitizeName (name : PyStr) : Except PyErr PyStr :=
  if name = [] || hasEmptyMatch name then .error .valueError
  else .ok (rootNsSub name none [])

/-- `Name.of` on a string argument (name.py lines 143-146):
`Name(Name.sanitize(name))`, whose `str()` is the stored string. -/
def nameOfStr (name : PyStr) : Except PyErr PyStr := sanitizeName name

/-- The set of canonical `Name` strings the data-model invariants allow:
the reserved `"<world>"` token, or a non-empty string with no empty path
segment or name and no superfluous root-namespace marker. -/
def validNameStr (s : PyStr) : Bool :=
  s = pystr "<world>" || (!(s = []) && !hasEmptyMatch s && !hasRootNsMarker s)

/-- `Name.isFull` (name.py lines 327-343): `str().startswith("|")`. -/
def isFullStr (s : PyStr) : Bool := s.head? = some '|'

/-- `Name.splitRoot` (name.py lines 764-794) on canonical strings:
split once on `'|'`; a leading empty part denotes `Name.world`. -/
def splitRootStr (s : PyStr) : PyStr × Option PyStr :=
  match splitOnceChar '|' s with
  | (_, none) => (s, none)
  | (x, some e) => (if x = [] then pystr "<world>" else x, some e)

/-- `Name.root` via `splitRoot` (the canonical string of the root). -/
def rootStr (s : PyStr) : PyStr := (splitRootStr s).1

/-- `Name.relative` (name.py lines 345-361): the subpath when the root
is `Name.world`, otherwise the name itself; `none` for `Name.world`. -/
def relativeStr (s : PyStr) : Option PyStr :=
  match splitRootStr s with
  | (r, e) => if r = pystr "<world>" then e else some s

/-- The piece-collecting loop of `Name.join` (name.py lines 250-268),
restricted to `Name`-or-`None` arguments (the shape `Name.join` is
called with in the round-trip property): `none` models Python `None`,
which fails the `isinstance` checks and raises `ValueError`.  Returns
the `worldRoot` flag and the list of pushed pieces. -/
def joinCollect : Nat → List (Option PyStr) → Except PyErr (Bool × List PyStr)
  | _, [] => .ok (false, [])
  | _, none :: _ => .error .valueError
  | i, some n :: rest =>
    match joinCollect (i + 1) rest with
    | .error e => .error e
    | .ok (wr, ls) =>
      if n = pystr "<world>" then .ok (wr || i = 0, ls)
      else if n.head? = some '|' then .ok (wr, n :: ls)
      else .ok (wr, pystr "|" :: n :: ls)

/-- `Name.join` (name.py lines 216-276) on `Name`-or-`None` arguments:
an empty piece list yields `Name.world`; a leading lone separator piece
is dropped unless the first argument was `<world>`; the pieces are then
concatenated. -/
def joinNames (args : List (Option PyStr)) : Except PyErr PyStr :=
  if args = [] then .error .valueError
  else
    match joinCollect 0 args with
    | .error e => .error e
    | .ok (worldRoot, ls) =>
      if ls = [] then .ok (pystr "<world>")
      else
        let ls2 := if ls.head? = some (pystr "|") && !worldRoot then ls.tail else ls
        .ok (ls2.foldr (· ++ ·) [])

/-! ## Namespace paths (src/pyphil/namespace.py)

A `Namespace` value is identified with its canonical string
(`Namespace.str`); `__eq__` compares exactly those strings.  The
constructor (`MetaNamespace.__call__`) accepts `":"` (the root) and
otherwise, via `_assert_validity`, any non-empty string without `'|'`,
without doubled colons and without a trailing colon; `""` is an alias
for `":"` and is never stored. -/

/-- Does the string contain two adjacent colons? (the `"::" in ns` test
of `_assert_validity`, namespace.py line 22). -/
def hasDoubleColon : PyStr → Bool
  | [] => false
  | [_] => false
  | c :: d :: rest => (c = ':' && d = ':') || hasDoubleColon (d :: rest)

/-- The canonical strings a `Namespace` value can hold. -/
def nsValid (s : PyStr) : Bool :=
  s = [':'] ||
    (!(s = []) && !(s.contains '|') && !hasDoubleColon s && !(s.getLast? = some ':'))

/-- `Namespace.split_root` (namespace.py lines 536-568) on canonical
strings: split once on `':'`.  The first component is the `name` of the
root namespace of the path (`""` for an absolute path, whose root is
`Namespace.root`); an empty remainder (which only happens for `":"`)
yields `none`, as does the absence of a colon (where the root is the
namespace itself, whose `name` is the whole single-segment string). -/
def splitRootNs (s : PyStr) : PyStr × Option PyStr :=
  match splitOnceChar ':' s with
  | (x, none) => (x, none)
  | (x, some e) => (x, if e = [] then none else some e)

/-- Python `<` on single characters (by code point). -/
def charCmp (a b : Char) : Ordering :=
  if a < b then .lt else if b < a then .gt else .eq

/-- Lexicographic comparison of lists under an element comparison. -/
def lexCmp {α : Type} (cmp : α → α → Ordering) : List α → List α → Ordering
  | [], [] => .eq
  | [], _ :: _ => .lt
  | _ :: _, [] => .gt
  | x :: xs, y :: ys =>
    match cmp x y with
    | .eq => lexCmp cmp xs ys
    | o => o

/-- Python `<`/`>` on strings: lexicographic comparison by code point,
as used on the segment names in `Namespace.__cmp__`. -/
def strCmpPy : PyStr → PyStr → Ordering := lexCmp charCmp

/-- Fuel-indexed iteration of `split_root`, listing the root `name` of
each successive remainder (the sequence of segment names
`Namespace.__cmp__` walks through).  The fuel only bounds the recursion
depth; `nsSegs` supplies enough of it, and the fuel-0 fallback `[s]`
agrees with the real value (which is `[[]]` there, since a string of
length 0 is `[]`). -/
def nsSegsAux : Nat → PyStr → List PyStr
  | 0, s => [s]
  | n + 1, s =>
    match splitRootNs s with
    | (x, none) => [x]
    | (x, some e) => x :: nsSegsAux n e

/-- The segment names of a namespace path, from the root down. -/
def nsSegs (s : PyStr) : List PyStr := nsSegsAux s.length s

/-- Fuel-indexed version of the `Namespace.__cmp__` loop
(namespace.py lines 645-657); the remainder handed to the recursive
call is strictly shorter, so the fuel in `nsCmp` never runs out. -/
def nsCmpAux : Nat → PyStr → PyStr → Ordering
  | 0, _, _ => .eq
  | n + 1, a, b =>
    match splitRootNs a, splitRootNs b with
    | (x, A), (y, B) =>
      match strCmpPy x y with
      | .lt => .lt
      | .gt => .gt
      | .eq =>
        match A, B with
        | none, none => .eq
        | none, some _ => .lt
        | some _, none => .gt
        | some a2, some b2 => nsCmpAux n a2 b2

/-- `Namespace.__cmp__` (namespace.py lines 620-657): compare the two
paths' root names; on a tie, a path without remainder precedes one with
a remainder, and two remainders are compared recursively. -/
def nsCmp (a b : PyStr) : Ordering := nsCmpAux (a.length + 1) a b

/-! ## Lazily memoised Namespace objects (src/pyphil/namespace.py)

The mutable memo fields of one `Namespace` object are modelled
explicitly; each attribute read is a state transformer.  Child
`Namespace` objects stored into `_root`/`_end`/`_parent` are represented
by their canonical strings (every child the code creates is constructed
with its `_ns` field already set). -/

/-- A lazily computed field: `ph` models the `placeholder` sentinel of
pyphil/types.py, `val` a computed value. -/
inductive Memo (α : Type) where
  | ph : Memo α
  | val : α → Memo α
deriving DecidableEq

/-- The fields of a `Namespace` object (namespace.py lines 182-203). -/
structure NsObj where
  ns : Memo PyStr
  root : Memo PyStr
  endF : Memo (Option PyStr)
  parent : Memo (Option PyStr)
  name : Memo PyStr
  depth : Int
deriving DecidableEq

/-- `Namespace.root` (namespace.py lines 680-681): `_ns=":"`,
`_end=None`, `_parent=None`, `_name=""`, `_depth=0`, `_root` itself. -/
def nsRootObj : NsObj := ⟨.val [':'], .val [':'], .val none, .val none, .val [], 0⟩

/-- `_assert_validity` (namespace.py lines 19-23). -/
def assertValidityOk (s : PyStr) : Bool :=
  !(s.contains '|') && !(1 < s.length && (s.getLast? = some ':' || hasDoubleColon s))

/-- `MetaNamespace.__call__` on a string (namespace.py lines 39-69):
`""` aliases the root; otherwise the string is validated and stored with
every derived field still a placeholder. -/
def nsObjOf (s : PyStr) : Except PyErr NsObj :=
  if s = [] then .ok nsRootObj
  else if assertValidityOk s then .ok ⟨.val s, .ph, .ph, .ph, .ph, -1⟩
  else .error .valueError

/-- The value `Namespace.str` returns (namespace.py lines 217-239):
the stored `_ns`, or — when `_ns` is the placeholder — the string
composed from `_name` and `_parent` (the parent contributing `""` when
it is the root).  The `.ph, .ph` fallback is unreachable: `_ns` must be
set whenever `_name` is a placeholder. -/
def nsStrRead (o : NsObj) : PyStr :=
  match o.ns with
  | .val s => s
  | .ph =>
    match o.name, o.parent with
    | .val nm, .val (some p) => (if p = [':'] then [] else p) ++ ':' :: nm
    | .val nm, _ => nm
    | .ph, _ => []

/-- `Namespace.str`'s state effect: memoise `_ns`. -/
def nsStrStep (o : NsObj) : NsObj := { o with ns := .val (nsStrRead o) }

/-- Splits off the part of `s` after the last occurrence of `sep`
(Python `s.rsplit(sep, 1)` finding an occurrence). -/
def rsplitLast (sep : Char) : PyStr → Option (PyStr × PyStr)
  | [] => none
  | c :: rest =>
    match rsplitLast sep rest with
    | some (p, t) => some (c :: p, t)
    | none => if c = sep then some ([], rest) else none

/-- `Namespace.parent`'s state effect (namespace.py lines 430-458): on
first access, right-split `_ns` once on `':'`; record `_parent` (the
root when the prefix is empty) and `_name`. -/
def nsParentStep (o : NsObj) : NsObj :=
  match o.parent with
  | .val _ => o
  | .ph =>
    match o.ns with
    | .ph => o
    | .val s =>
      match rsplitLast ':' s with
      | some (pre, nm) =>
        { o with parent := .val (some (if pre = [] then [':'] else pre)), name := .val nm }
      | none => { o with parent := .val none, name := .val s }

/-- `Namespace.name`'s state effect (namespace.py lines 412-428):
delegate to `parent` when `_name` is a placeholder. -/
def nsNameStep (o : NsObj) : NsObj :=
  match o.name with
  | .val _ => o
  | .ph => nsParentStep o

/-- `Namespace.depth`'s state effect (namespace.py lines 460-484):
count the colons of `_ns` when set; otherwise derive from the parent. -/
def nsDepthStep (o : NsObj) : NsObj :=
  if o.depth < 0 then
    match o.ns with
    | .val s => { o with depth := (s.count ':' : Int) }
    | .ph =>
      match o.parent with
      | .val (some p) => { o with depth := (p.count ':' : Int) + 1 }
      | _ => { o with depth := 0 }
  else o

/-- `Namespace.split_root`'s state effect (namespace.py lines 536-568):
on first access, call `str()` (memoising `_ns`), split once on `':'`,
record `_root` (unless already set) and `_end` (`None` for an empty
remainder); with no colon present, `_root` becomes the object itself and
`_end` becomes `None`. -/
def nsSplitRootStep (o : NsObj) : NsObj :=
  match o.endF with
  | .val _ => o
  | .ph =>
    let s := nsStrRead o
    match splitOnceChar ':' s with
    | (x, some e) =>
      { o with
        ns := .val s,
        root := match o.root with
          | .ph => .val (if x = [] then [':'] else x)
          | .val r => .val r,
        endF := .val (if e = [] then none else some e) }
    | (_, none) =>
      { o with ns := .val s, root := .val s, endF := .val none }

/-- The derived-attribute reads of C10.  `hierarchy()` and `split()`
touch the object's own state only through `parent` (namespace.py lines
486-534). -/
inductive NsOp where
  | strO : NsOp
  | nameO : NsOp
  | parentO : NsOp
  | depthO : NsOp
  | hierO : NsOp
  | splitO : NsOp
  | splitRootO : NsOp
deriving DecidableEq

/-- One attribute read, as a state transformer. -/
def nsStep (o : NsObj) : NsOp → NsObj
  | .strO => nsStrStep o
  | .nameO => nsNameStep o
  | .parentO => nsParentStep o
  | .depthO => nsDepthStep o
  | .hierO => nsParentStep o
  | .splitO => nsParentStep o
  | .splitRootO => nsSplitRootStep o

/-- A sequence of attribute reads. -/
def nsRun (o : NsObj) (ops : List NsOp) : NsObj := ops.foldl nsStep o

/-! ## Theorems -/

theorem world_token_cons : pystr "<world>" = '<' :: pystr "world>" := rfl

theorem bar_world_cons : pystr "|<world>" = '|' :: pystr "<world>" := rfl

/-- A full name string `'|' :: rest` is never the `<world>` token. -/
theorem full_ne_world (rest : PyStr) : ('|' :: rest : PyStr) ≠ pystr "<world>" := by
  intro h
  rw [world_token_cons] at h
  simp at h

/-- A valid full name `'|' :: rest` has a non-empty remainder that does
not start with a second separator. -/
theorem validName_full_parts (rest : PyStr) (hv : validNameStr ('|' :: rest) = true) :
    rest ≠ [] ∧ rest.head? ≠ some '|' := by
  simp only [validNameStr, Bool.or_eq_true, decide_eq_true_eq, Bool.and_eq_true,
    Bool.not_eq_true'] at hv
  rcases hv with h | ⟨⟨_, hemp⟩, _⟩
  · exact absurd h (full_ne_world rest)
  · constructor
    · rintro rfl
      simp [hasEmptyMatch] at hemp
    · intro hh
      cases rest with
      | nil => simp at hh
      | cons d rest2 =>
        have hd : d = '|' := by simpa using hh
        subst hd
        simp [hasEmptyMatch] at hemp

/-- C1: `Name.of` on a syntactically valid string is claimed to return a
`Name` whose `str()` is the input minus superfluous root-namespace
markers; the code instead returns the empty string for EVERY accepted
input, because `Name.sanitize` calls `_rootNsPattern.sub(name, "")` with
the `repl`/`string` arguments swapped.  (The error cases of the claim do
hold: empty strings and empty segments raise `ValueError`.)  This
theorem evaluates the code at the failing inputs. -/
theorem C1_sanitize_returns_empty :
    nameOfStr (pystr "foo") = .ok [] ∧
    nameOfStr (pystr "|ns:foo|:bar|test") = .ok [] ∧
    rootNsSub [] none (pystr "|ns:foo|:bar|test") = pystr "|ns:foo|bar|test" ∧
    nameOfStr [] = .error .valueError ∧
    nameOfStr (pystr "a||b") = .error .valueError := by decide

/-- C2 counterexample: for the relative (non-world-rooted) `Name`
`"a|b"`, `relative()` returns the whole path, so
`Name.join(n.root(), n.relative())` duplicates the root and yields
`"a|a|b"` instead of `"a|b"`; the claimed identity fails. -/
theorem C2_join_root_relative_counterexample :
    validNameStr (pystr "a|b") = true ∧
    joinNames [some (rootStr (pystr "a|b")), relativeStr (pystr "a|b")] =
      .ok (pystr "a|a|b") ∧
    (pystr "a|a|b" : PyStr) ≠ pystr "a|b" := by decide

/-- C2 (amended): for every full (world-rooted) `Name` value other than
`"|<world>"`, `Name.join(n.root(), n.relative()).str() == n.str()`. -/
theorem C2_join_root_relative_of_full (s : PyStr) (hv : validNameStr s = true)
    (hf : isFullStr s = true) (hw : s ≠ pystr "|<world>") :
    joinNames [some (rootStr s), relativeStr s] = .ok s := by
  cases s with
  | nil => simp [isFullStr] at hf
  | cons c rest =>
    have hc : c = '|' := by simpa [isFullStr] using hf
    subst hc
    obtain ⟨hr1, hr2⟩ := validName_full_parts rest hv
    have hrw : rest ≠ pystr "<world>" := by
      intro h
      exact hw (by rw [bar_world_cons, h])
    have hsplit : splitRootStr ('|' :: rest) = (pystr "<world>", some rest) := by
      simp [splitRootStr, splitOnceChar]
    have hroot : rootStr ('|' :: rest) = pystr "<world>" := by
      simp [rootStr, hsplit]
    have hrel : relativeStr ('|' :: rest) = some rest := by
      simp [relativeStr, hsplit]
    rw [hroot, hrel]
    simp [joinNames, joinCollect, hrw, hr2]
    rfl

/-- C2 witness: the amended identity at the concrete full name `"|foo"`. -/
theorem C2_join_root_relative_of_full_witness :
    joinNames [some (rootStr (pystr "|foo")), relativeStr (pystr "|foo")] =
      .ok (pystr "|foo") :=
  C2_join_root_relative_of_full (pystr "|foo") (by decide) (by decide) (by decide)

/-- C4 counterexample: at `Name.world` the claimed equivalence
"`isFull` iff the string starts with `'|'` OR the value is the root
token" is false — `Name.world.isFull()` is `False` in the code (and its
docstring says so explicitly). -/
theorem C4_isFull_counterexample :
    ¬ (isFullStr (pystr "<world>") = true ↔
        ((pystr "<world>").head? = some '|' ∨ (pystr "<world>" : PyStr) = pystr "<world>")) := by
  decide

/-- C4 (amended): for every `Name` value, `isFull()` is true iff the
canonical string begins with the path separator — in particular it is
false at the reserved root token `Name.world`. -/
theorem C4_isFull_iff (s : PyStr) (hv : validNameStr s = true) :
    isFullStr s = true ↔ (s.head? = some '|' ∧ s ≠ pystr "<world>") := by
  constructor
  · intro h
    have hh : s.head? = some '|' := by simpa [isFullStr] using h
    refine ⟨hh, ?_⟩
    cases s with
    | nil => simp at hh
    | cons c rest =>
      have hc : c = '|' := by simpa using hh
      subst hc
      exact full_ne_world rest
  · rintro ⟨h, _⟩
    simpa [isFullStr] using h

/-- C4 witness: the amended equivalence at the concrete name `"|name"`. -/
theorem C4_isFull_iff_witness : isFullStr (pystr "|name") = true :=
  (C4_isFull_iff (pystr "|name") (by decide)).mpr (by decide)

/-! ### Totality of the slot-based decomposition -/

theorem splitMax_ne_nil (sep : Char) (n : Nat) (s : PyStr) : splitMax sep n s ≠ [] := by
  cases n with
  | zero => simp [splitMax]
  | succ n =>
    unfold splitMax
    rcases h : splitOnceChar sep s with ⟨x, _ | e⟩ <;> simp [h]

theorem sbBaseStep_ok (side module : Option PyStr) (starts : List PyStr) (ty : Option PyStr)
    (h : starts ≠ []) : exceptOk (sbBaseStep side module starts ty) = true := by
  cases starts with
  | nil => exact absurd rfl h
  | cons b rest => simp [sbBaseStep, exceptOk]

theorem sbModuleStep_ok (side : Option PyStr) (starts : List PyStr) (ty : Option PyStr)
    (h : starts ≠ []) : exceptOk (sbModuleStep side starts ty) = true := by
  cases starts with
  | nil => exact absurd rfl h
  | cons s0 rest =>
    by_cases hm : lowerStr s0 ∈ sbModulesLow
    · cases rest with
      | nil => simp [sbModuleStep, hm, exceptOk]
      | cons r0 rrest =>
        have hb := sbBaseStep_ok side (some s0) (r0 :: rrest) ty (by simp)
        simpa [sbModuleStep, hm] using hb
    · have hb := sbBaseStep_ok side none (s0 :: rest) ty (by simp)
      simpa [sbModuleStep, hm] using hb

theorem sbSideStep_ok (starts : List PyStr) (ty : Option PyStr)
    (h : starts ≠ []) : exceptOk (sbSideStep starts ty) = true := by
  cases starts with
  | nil => exact absurd rfl h
  | cons s0 rest =>
    by_cases hs : lowerStr s0 ∈ sbSidesLow
    · cases rest with
      | nil => simp [sbSideStep, hs, exceptOk]
      | cons r0 rrest =>
        have hb := sbModuleStep_ok (some s0) (r0 :: rrest) ty (by simp)
        simpa [sbSideStep, hs] using hb
    · have hb := sbModuleStep_ok none (s0 :: rest) ty (by simp)
      simpa [sbSideStep, hs] using hb

theorem sbAfterType_ok (name semi ty : PyStr) : exceptOk (sbAfterType name semi ty) = true := by
  unfold sbAfterType
  rcases h : splitMax '_' 3 name with _ | ⟨s0, _ | ⟨s1, _ | ⟨s2, rest⟩⟩⟩
  · exact absurd h (splitMax_ne_nil _ _ _)
  · by_cases hsm : semi = ([] : PyStr)
    · by_cases ht : lowerStr ty ∈ sbTypesLow
      · simp [hsm, ht, exceptOk]
      · have hss := sbSideStep_ok [ty] none (by simp)
        simpa [hsm, ht] using hss
    · by_cases ht : lowerStr ty ∈ sbTypesLow
      · have hss := sbSideStep_ok [s0] (some ty) (by simp)
        simpa [hsm, ht] using hss
      · have hss := sbSideStep_ok [s0, ty] none (by simp)
        simpa [hsm, ht] using hss
  · by_cases hsm : semi = ([] : PyStr)
    · by_cases ht : lowerStr ty ∈ sbTypesLow
      · simp [hsm, ht, exceptOk]
      · have hss := sbSideStep_ok [ty] none (by simp)
        simpa [hsm, ht] using hss
    · by_cases ht : lowerStr ty ∈ sbTypesLow
      · have hss := sbSideStep_ok [s0, s1] (some ty) (by simp)
        simpa [hsm, ht] using hss
      · have hss := sbSideStep_ok [s0, s1, ty] none (by simp)
        simpa [hsm, ht] using hss
  · simp [exceptOk]

theorem sbDecomposeRun_ok (s : PyStr) : exceptOk (sbDecomposeRun s) = true := by
  unfold sbDecomposeRun
  rcases hscan : scanHardTypes s sbHardTypes with _ | ⟨pre, suf⟩ | _
  · simp [exceptOk]
  · exact sbAfterType_ok _ _ _
  · rcases hr : rpartitionUnder s with ⟨p, semi, t⟩
    exact sbAfterType_ok _ _ _

theorem exceptOk_map {α β : Type} (f : α → β) (e : Except PyErr α) :
    exceptOk (e.map f) = exceptOk e := by
  cases e <;> simp [exceptOk, Except.map]

/-- C5: the terminal `<type>` slot is split off by greedily matching the
longest known underscore-containing type value against the lowercased
suffix (`"R_leg_knee_IK_ctrl"` → type `"IK_ctrl"`, not type `"ctrl"` with
description `"IK"`); when no known value matches, the last delimited
segment is split off unconditionally (`"R_leg_knee_foo"` → type
`"foo"`). -/
theorem C5_hard_type_suffix_greedy :
    scanHardTypes (pystr "R_leg_knee_IK_ctrl") sbHardTypes =
      .found (pystr "R_leg_knee") (pystr "IK_ctrl") ∧
    sbDecomposeRun (pystr "R_leg_knee_IK_ctrl") =
      .ok ⟨some (pystr "R"), some (pystr "leg"), some (pystr "knee"), none,
        some (pystr "IK_ctrl")⟩ ∧
    sbDecomposeRun (pystr "R_leg_knee_foo") =
      .ok ⟨some (pystr "R"), some (pystr "leg"), some (pystr "knee"), none,
        some (pystr "foo")⟩ := by
  decide

theorem endsWithPy_mem {s t : PyStr} (h : endsWithPy s t = true) {c : Char} (hc : c ∈ t) :
    c ∈ s := by
  have ht : s.drop (s.length - t.length) = t := by simpa [endsWithPy] using h
  exact (List.drop_suffix _ _).mem (ht ▸ hc)

theorem rpartAux_eq_none {s : PyStr} (h : '_' ∉ s) : rpartAux s = none := by
  induction s with
  | nil => rfl
  | cons c rest ih =>
    have hc : c ≠ '_' := by
      intro e
      exact h (e ▸ List.mem_cons_self c rest)
    have hr : '_' ∉ rest := fun hm => h (List.mem_cons_of_mem _ hm)
    simp [rpartAux, ih hr, hc]

/-- C6: heuristic decomposition of a single bare segment.  A segment
from the side value-set yields only `side` populated; a segment unknown
to every value-set is assigned to `basename`; in both cases every other
component is absent and nothing fails. -/
theorem C6_single_segment_heuristic :
    (∀ s, s ∈ sbSides → sbDecomposeRun s = .ok ⟨some s, none, none, none, none⟩) ∧
    (∀ s, s ≠ [] → '_' ∉ s → '_' ∉ lowerStr s →
      lowerStr s ∉ sbSidesLow → lowerStr s ∉ sbModulesLow → lowerStr s ∉ sbTypesLow →
      sbDecomposeRun s = .ok ⟨none, none, some s, none, none⟩) := by
  constructor
  · intro s hs
    fin_cases hs <;> decide
  · intro s h0 h1 h2 h3 h4 h5
    have hf : endsWithPy (lowerStr s) (pystr "fk_ctrl") = false := by
      rw [Bool.eq_false_iff]
      intro hsuf
      exact h2 (endsWithPy_mem hsuf (by decide))
    have hi : endsWithPy (lowerStr s) (pystr "ik_ctrl") = false := by
      rw [Bool.eq_false_iff]
      intro hsuf
      exact h2 (endsWithPy_mem hsuf (by decide))
    have hscan : scanHardTypes s sbHardTypes = .noMatch := by
      simp [scanHardTypes, sbHardTypes, hf, hi]
    have hr : rpartitionUnder s = ([], [], s) := by
      simp [rpartitionUnder, rpartAux_eq_none h1]
    simp only [sbDecomposeRun, hscan, hr]
    simp [sbAfterType, splitMax, splitOnceChar, h3, h4, h5, sbSideStep, sbModuleStep, sbBaseStep]

/-- C6 witness: the two heuristics at the concrete segments `"R"` and
`"xyz"`. -/
theorem C6_single_segment_heuristic_witness :
    sbDecomposeRun (pystr "R") = .ok ⟨some (pystr "R"), none, none, none, none⟩ ∧
    sbDecomposeRun (pystr "xyz") = .ok ⟨none, none, some (pystr "xyz"), none, none⟩ :=
  ⟨C6_single_segment_heuristic.1 (pystr "R") (by decide),
   C6_single_segment_heuristic.2 (pystr "xyz") (by decide) (by decide) (by decide)
     (by decide) (by decide) (by decide)⟩

/-- C9: for every non-empty string, `SBConvention.decompose` succeeds,
every component getter returns without raising, and the composition's
`name()` is still exactly the input string. -/
theorem C9_sb_decompose_total_preserves_name (s : PyStr) (hs : s ≠ []) :
    sbDecompose s = .ok ⟨some s, ⟨none, none, none, none, none⟩⟩ ∧
    exceptOk (SBName.sideGet ⟨some s, ⟨none, none, none, none, none⟩⟩) = true ∧
    exceptOk (SBName.moduleGet ⟨some s, ⟨none, none, none, none, none⟩⟩) = true ∧
    exceptOk (SBName.basenameGet ⟨some s, ⟨none, none, none, none, none⟩⟩) = true ∧
    exceptOk (SBName.descriptionGet ⟨some s, ⟨none, none, none, none, none⟩⟩) = true ∧
    exceptOk (SBName.typeGet ⟨some s, ⟨none, none, none, none, none⟩⟩) = true ∧
    SBName.nameGet ⟨some s, ⟨none, none, none, none, none⟩⟩ = s := by
  refine ⟨by simp [sbDecompose, hs], ?_, ?_, ?_, ?_, ?_, rfl⟩ <;>
    simp [SBName.sideGet, SBName.moduleGet, SBName.basenameGet, SBName.descriptionGet,
      SBName.typeGet, SBName.compOf, exceptOk_map, sbDecomposeRun_ok s]

/-- C9 witness: totality and name preservation at the concrete string
`"some_odd_name"`. -/
theorem C9_sb_decompose_total_preserves_name_witness :
    sbDecompose (pystr "some_odd_name") =
      .ok ⟨some (pystr "some_odd_name"), ⟨none, none, none, none, none⟩⟩ ∧
    exceptOk (SBName.sideGet ⟨some (pystr "some_odd_name"), ⟨none, none, none, none, none⟩⟩) = true ∧
    exceptOk (SBName.moduleGet ⟨some (pystr "some_odd_name"), ⟨none, none, none, none, none⟩⟩) = true ∧
    exceptOk (SBName.basenameGet ⟨some (pystr "some_odd_name"), ⟨none, none, none, none, none⟩⟩) = true ∧
    exceptOk (SBName.descriptionGet ⟨some (pystr "some_odd_name"), ⟨none, none, none, none, none⟩⟩) = true ∧
    exceptOk (SBName.typeGet ⟨some (pystr "some_odd_name"), ⟨none, none, none, none, none⟩⟩) = true ∧
    SBName.nameGet ⟨some (pystr "some_odd_name"), ⟨none, none, none, none, none⟩⟩ =
      pystr "some_odd_name" :=
  C9_sb_decompose_total_preserves_name (pystr "some_odd_name") (by decide)

/-- C3: unknown-component handling.  NO enumerated path delivers an
unknown-component error carrying the convention identity and the
offending component names.  A component READ on the no-op convention's
composition raises `NotImplementedError` from the `NameComposition`
base class, because the `NoComposition` override is misnamed
`get_component` (contradicting the repository's own test
`test_getComponent_unsupported`); and every other path — `compose` and
`replace` of both conventions and component reads of the slot-based
convention — escapes with a payload-free `AttributeError`, because
`UnknownComponentError.__init__` calls `convention.isNoConvention()`
(errors.py line 63), which no class in the repository defines
(contradicting `test_compose_any`, `test_replace_unsupported` and
`test_isNoConvention`).  The theorem evaluates the code at each
enumerated operation. -/
theorem C3_unknown_component_errors :
    NoComposition.getComponentF ⟨pystr "test"⟩ (pystr "anything") = .error .notImplemented ∧
    noCompose [pystr "test"] = .error .attributeError ∧
    NoComposition.replaceF ⟨pystr "test"⟩ [pystr "test"] = .error .attributeError ∧
    sbCompose none none none none none [pystr "bogus"] = .error .attributeError ∧
    SBName.getComponentF ⟨some (pystr "x"), ⟨none, none, none, none, none⟩⟩ (pystr "bogus") =
      .error .attributeError ∧
    SBName.replaceF ⟨some (pystr "x"), ⟨none, none, none, none, none⟩⟩
        none none none none none [pystr "bogus"] =
      .error .attributeError := by
  decide

/-- C8: naming-convention scopes observe strict LIFO discipline: after
`enter(A); enter(B); exit(B); exit(A)` the active convention is the one
active before `enter(A)`; exiting the outer scope while the inner one is
still active raises `RuntimeError` and leaves the active convention
unchanged. -/
theorem C8_scope_lifo (orig A B : ConvId) (hAB : A ≠ B) :
    enterScope A orig = (⟨A, orig⟩, A) ∧
    enterScope B A = (⟨B, A⟩, B) ∧
    exitScope ⟨B, A⟩ B = (A, none) ∧
    exitScope ⟨A, orig⟩ A = (orig, none) ∧
    exitScope ⟨A, orig⟩ B = (B, some .runtimeError) := by
  refine ⟨rfl, rfl, by simp [exitScope], by simp [exitScope], ?_⟩
  simp [exitScope, Ne.symm hAB]

/-- C8 witness: the scope discipline at concrete conventions (the
active convention before the scopes being a third, anonymous one). -/
theorem C8_scope_lifo_witness :
    enterScope ConvId.noConv (ConvId.dummy 0) = (⟨ConvId.noConv, ConvId.dummy 0⟩, ConvId.noConv) ∧
    enterScope ConvId.sbConv ConvId.noConv = (⟨ConvId.sbConv, ConvId.noConv⟩, ConvId.sbConv) ∧
    exitScope ⟨ConvId.sbConv, ConvId.noConv⟩ ConvId.sbConv = (ConvId.noConv, none) ∧
    exitScope ⟨ConvId.noConv, ConvId.dummy 0⟩ ConvId.noConv = (ConvId.dummy 0, none) ∧
    exitScope ⟨ConvId.noConv, ConvId.dummy 0⟩ ConvId.sbConv =
      (ConvId.sbConv, some .runtimeError) :=
  C8_scope_lifo (ConvId.dummy 0) ConvId.noConv ConvId.sbConv (by decide)

/-! ### The namespace total order -/

theorem splitOnceChar_eq_none {sep : Char} {s x : PyStr}
    (h : splitOnceChar sep s = (x, none)) : s = x := by
  induction s generalizing x with
  | nil =>
    simp [splitOnceChar] at h
    simp [h]
  | cons c rest ih =>
    by_cases hc : c = sep
    · simp [splitOnceChar, hc] at h
    · rw [splitOnceChar, if_neg hc] at h
      rcases hr : splitOnceChar sep rest with ⟨p, r⟩
      rw [hr] at h
      cases r with
      | none =>
        simp at h
        rw [ih hr]
        exact h
      | some e => simp at h

theorem splitOnceChar_eq_some {sep : Char} {s x e : PyStr}
    (h : splitOnceChar sep s = (x, some e)) : s = x ++ sep :: e := by
  induction s generalizing x with
  | nil => simp [splitOnceChar] at h
  | cons c rest ih =>
    by_cases hc : c = sep
    · rw [splitOnceChar, if_pos hc] at h
      simp at h
      rw [hc, h.1, h.2]
      simp
    · rw [splitOnceChar, if_neg hc] at h
      rcases hr : splitOnceChar sep rest with ⟨p, r⟩
      rw [hr] at h
      cases r with
      | none => simp at h
      | some e2 =>
        simp at h
        rw [h.2] at hr
        rw [← h.1, ih hr]
        rfl

theorem splitRootNs_eq_some {s x e : PyStr} (h : splitRootNs s = (x, some e)) :
    s = x ++ ':' :: e ∧ e ≠ [] := by
  unfold splitRootNs at h
  rcases hr : splitOnceChar ':' s with ⟨p, r⟩
  rw [hr] at h
  cases r with
  | none => simp at h
  | some e2 =>
    by_cases he : e2 = ([] : PyStr)
    · simp [he] at h
    · simp [he] at h
      refine ⟨?_, ?_⟩
      · rw [← h.1, ← h.2]
        exact splitOnceChar_eq_some hr
      · rw [← h.2]
        exact he

theorem splitRootNs_eq_none {s x : PyStr} (h : splitRootNs s = (x, none)) :
    s = x ∨ s = x ++ [':'] := by
  unfold splitRootNs at h
  rcases hr : splitOnceChar ':' s with ⟨p, r⟩
  rw [hr] at h
  cases r with
  | none =>
    simp at h
    exact Or.inl (h ▸ splitOnceChar_eq_none hr)
  | some e2 =>
    by_cases he : e2 = ([] : PyStr)
    · simp [he] at h
      right
      rw [← h]
      have := splitOnceChar_eq_some hr
      rw [he] at this
      exact this
    · simp [he] at h

theorem splitRootNs_some_length {s x e : PyStr} (h : splitRootNs s = (x, some e)) :
    e.length < s.length := by
  obtain ⟨hs, _⟩ := splitRootNs_eq_some h
  subst hs
  simp
  omega

theorem nsSegsAux_fuel (f g : Nat) (s : PyStr) (hf : s.length ≤ f) (hg : s.length ≤ g) :
    nsSegsAux f s = nsSegsAux g s := by
  induction f generalizing g s with
  | zero =>
    have hs : s = [] := List.length_eq_zero.mp (Nat.le_zero.mp hf)
    subst hs
    cases g with
    | zero => rfl
    | succ m => simp [nsSegsAux, splitRootNs, splitOnceChar]
  | succ n ih =>
    cases g with
    | zero =>
      have hs : s = [] := List.length_eq_zero.mp (Nat.le_zero.mp hg)
      subst hs
      simp [nsSegsAux, splitRootNs, splitOnceChar]
    | succ m =>
      unfold nsSegsAux
      rcases h : splitRootNs s with ⟨x, _ | e⟩
      · rfl
      · have hlen := splitRootNs_some_length h
        have heq := ih m e (by omega) (by omega)
        simp [heq]

theorem nsSegs_of_none {s x : PyStr} (h : splitRootNs s = (x, none)) : nsSegs s = [x] := by
  rcases hn : s.length with _ | n
  · have hs : s = [] := List.length_eq_zero.mp hn
    subst hs
    have : x = [] := by simpa [splitRootNs, splitOnceChar] using h.symm
    simp [nsSegs, nsSegsAux, this]
  · simp only [nsSegs, hn, nsSegsAux, h]

theorem nsSegs_of_some {s x e : PyStr} (h : splitRootNs s = (x, some e)) :
    nsSegs s = x :: nsSegs e := by
  have hlen := splitRootNs_some_length h
  rcases hn : s.length with _ | n
  · omega
  · simp only [nsSegs, hn, nsSegsAux, h]
    rw [nsSegsAux_fuel n e.length e (by omega) (le_refl _)]

theorem nsSegs_ne_nil (s : PyStr) : nsSegs s ≠ [] := by
  rcases h : splitRootNs s with ⟨x, _ | e⟩
  · simp [nsSegs_of_none h]
  · simp [nsSegs_of_some h]

theorem charCmp_eq_iff (a b : Char) : charCmp a b = .eq ↔ a = b := by
  rcases lt_trichotomy a b with h | h | h
  · simp [charCmp, h, ne_of_lt h]
  · subst h
    simp [charCmp, lt_irrefl]
  · simp [charCmp, h, asymm h, (ne_of_lt h).symm]

theorem charCmp_lt_iff (a b : Char) : charCmp a b = .lt ↔ a < b := by
  rcases lt_trichotomy a b with h | h | h
  · simp [charCmp, h]
  · subst h
    simp [charCmp, lt_irrefl]
  · simp [charCmp, h, asymm h, not_lt_of_gt h]

theorem charCmp_lt_gt (a b : Char) : charCmp a b = .lt ↔ charCmp b a = .gt := by
  rcases lt_trichotomy a b with h | h | h
  · simp [charCmp, h, asymm h]
  · subst h
    simp [charCmp, lt_irrefl]
  · simp [charCmp, h, asymm h, not_lt_of_gt h]

theorem charCmp_trans {a b c : Char} (h1 : charCmp a b = .lt) (h2 : charCmp b c = .lt) :
    charCmp a c = .lt :=
  (charCmp_lt_iff a c).mpr (lt_trans ((charCmp_lt_iff a b).mp h1) ((charCmp_lt_iff b c).mp h2))

section LexCmp

variable {α : Type} {cmp : α → α → Ordering}

theorem lexCmp_eq_iff (heq : ∀ x y, cmp x y = .eq ↔ x = y) :
    ∀ l m : List α, lexCmp cmp l m = .eq ↔ l = m := by
  intro l
  induction l with
  | nil =>
    intro m
    cases m <;> simp [lexCmp]
  | cons x xs ih =>
    intro m
    cases m with
    | nil => simp [lexCmp]
    | cons y ys =>
      rcases hxy : cmp x y with _ | _ | _
      · constructor
        · intro h
          simp [lexCmp, hxy] at h
        · intro h
          injection h with h1 h2
          rw [(heq x y).mpr h1] at hxy
          cases hxy
      · have hx : x = y := (heq x y).mp hxy
        subst hx
        simp only [lexCmp, hxy]
        rw [ih ys]
        simp
      · constructor
        · intro h
          simp [lexCmp, hxy] at h
        · intro h
          injection h with h1 h2
          rw [(heq x y).mpr h1] at hxy
          cases hxy

theorem lexCmp_lt_gt (heq : ∀ x y, cmp x y = .eq ↔ x = y)
    (hswap : ∀ x y, cmp x y = .lt ↔ cmp y x = .gt) :
    ∀ l m : List α, lexCmp cmp l m = .lt ↔ lexCmp cmp m l = .gt := by
  intro l
  induction l with
  | nil =>
    intro m
    cases m <;> simp [lexCmp]
  | cons x xs ih =>
    intro m
    cases m with
    | nil => simp [lexCmp]
    | cons y ys =>
      rcases hxy : cmp x y with _ | _ | _
      · have hyx : cmp y x = .gt := (hswap x y).mp hxy
        simp [lexCmp, hxy, hyx]
      · have hx : x = y := (heq x y).mp hxy
        subst hx
        simp only [lexCmp, hxy]
        exact ih ys
      · have hyx : cmp y x = .lt := (hswap y x).mpr hxy
        simp [lexCmp, hxy, hyx]

theorem lexCmp_trans (heq : ∀ x y, cmp x y = .eq ↔ x = y)
    (htrans : ∀ x y z, cmp x y = .lt → cmp y z = .lt → cmp x z = .lt) :
    ∀ l m k : List α, lexCmp cmp l m = .lt → lexCmp cmp m k = .lt → lexCmp cmp l k = .lt := by
  intro l
  induction l with
  | nil =>
    intro m k h1 h2
    cases m with
    | nil => simp [lexCmp] at h1
    | cons y ys =>
      cases k with
      | nil => simp [lexCmp] at h2
      | cons z zs => simp [lexCmp]
  | cons x xs ih =>
    intro m k h1 h2
    cases m with
    | nil => simp [lexCmp] at h1
    | cons y ys =>
      cases k with
      | nil => simp [lexCmp] at h2
      | cons z zs =>
        rcases hxy : cmp x y with _ | _ | _
        · rcases hyz : cmp y z with _ | _ | _
          · simp [lexCmp, htrans x y z hxy hyz]
          · have hy : y = z := (heq y z).mp hyz
            subst hy
            simp [lexCmp, hxy]
          · simp [lexCmp, hyz] at h2
        · have hx : x = y := (heq x y).mp hxy
          subst hx
          simp only [lexCmp, hxy] at h1
          rcases hxz : cmp x z with _ | _ | _
          · simp [lexCmp, hxz]
          · have hx2 : x = z := (heq x z).mp hxz
            subst hx2
            simp only [lexCmp, hxz] at h2 ⊢
            exact ih ys zs h1 h2
          · simp [lexCmp, hxz] at h2
        · simp [lexCmp, hxy] at h1

theorem lexCmp_append_self (heq : ∀ x y, cmp x y = .eq ↔ x = y) :
    ∀ (l m : List α), m ≠ [] → lexCmp cmp l (l ++ m) = .lt := by
  intro l
  induction l with
  | nil =>
    intro m hm
    cases m with
    | nil => exact absurd rfl hm
    | cons z zs => simp [lexCmp]
  | cons x xs ih =>
    intro m hm
    simp only [List.cons_append, lexCmp, (heq x x).mpr rfl]
    exact ih m hm

end LexCmp

theorem strCmp_eq_iff (x y : PyStr) : strCmpPy x y = .eq ↔ x = y :=
  lexCmp_eq_iff charCmp_eq_iff x y

theorem strCmp_lt_gt (x y : PyStr) : strCmpPy x y = .lt ↔ strCmpPy y x = .gt :=
  lexCmp_lt_gt charCmp_eq_iff charCmp_lt_gt x y

theorem strCmp_trans {x y z : PyStr} (h1 : strCmpPy x y = .lt) (h2 : strCmpPy y z = .lt) :
    strCmpPy x z = .lt :=
  lexCmp_trans charCmp_eq_iff (fun _ _ _ hu hv => charCmp_trans hu hv) x y z h1 h2

theorem nsSegs_cons (s : PyStr) : ∃ z zs, nsSegs s = z :: zs := by
  rcases hsegs : nsSegs s with _ | ⟨z, zs⟩
  · exact absurd hsegs (nsSegs_ne_nil s)
  · exact ⟨z, zs, rfl⟩

/-- The `__cmp__` loop is exactly lexicographic comparison of the
segment-name streams. -/
theorem nsCmpAux_eq_lex :
    ∀ (f : Nat) (a b : PyStr), a.length < f →
      nsCmpAux f a b = lexCmp strCmpPy (nsSegs a) (nsSegs b) := by
  intro f
  induction f with
  | zero =>
    intro a b h
    omega
  | succ n ih =>
    intro a b hf
    unfold nsCmpAux
    rcases ha : splitRootNs a with ⟨x, A⟩
    rcases hb : splitRootNs b with ⟨y, B⟩
    cases A with
    | none =>
      rw [nsSegs_of_none ha]
      cases B with
      | none =>
        rw [nsSegs_of_none hb]
        rcases hxy : strCmpPy x y with _ | _ | _ <;> simp [lexCmp, hxy]
      | some b2 =>
        rw [nsSegs_of_some hb]
        obtain ⟨z, zs, hz⟩ := nsSegs_cons b2
        rw [hz]
        rcases hxy : strCmpPy x y with _ | _ | _ <;> simp [lexCmp, hxy]
    | some a2 =>
      rw [nsSegs_of_some ha]
      obtain ⟨w, ws, hw⟩ := nsSegs_cons a2
      cases B with
      | none =>
        rw [nsSegs_of_none hb, hw]
        rcases hxy : strCmpPy x y with _ | _ | _ <;> simp [lexCmp, hxy]
      | some b2 =>
        rw [nsSegs_of_some hb]
        have hlen := splitRootNs_some_length ha
        have hrec := ih a2 b2 (by omega)
        rcases hxy : strCmpPy x y with _ | _ | _ <;> simp [lexCmp, hxy, hrec]

theorem nsCmp_eq_lex (a b : PyStr) :
    nsCmp a b = lexCmp strCmpPy (nsSegs a) (nsSegs b) :=
  nsCmpAux_eq_lex (a.length + 1) a b (by omega)

theorem getLast?_append_of_ne_nil (l1 l2 : PyStr) (h : l2 ≠ []) :
    (l1 ++ l2).getLast? = l2.getLast? := by
  rw [List.getLast?_append]
  cases l2 with
  | nil => exact absurd rfl h
  | cons y ys =>
    rw [List.getLast?_cons]
    simp

/-- Joining the segment names with `':'` recovers the string, provided
it has no trailing colon (the root path `":"`, whose trailing empty
segment is dropped, is handled separately). -/
theorem joinSep_nsSegs :
    ∀ (n : Nat) (s : PyStr), s.length ≤ n → s ≠ [] → s.getLast? ≠ some ':' →
      joinSep ':' (nsSegs s) = s := by
  intro n
  induction n with
  | zero =>
    intro s h h0 _
    exact absurd (List.length_eq_zero.mp (Nat.le_zero.mp h)) h0
  | succ n ih =>
    intro s hlen h0 hlast
    rcases h : splitRootNs s with ⟨x, _ | e⟩
    · rcases splitRootNs_eq_none h with hs | hs
      · rw [nsSegs_of_none h]
        subst hs
        rfl
      · exfalso
        apply hlast
        rw [hs]
        exact List.getLast?_concat _
    · obtain ⟨hs, hne⟩ := splitRootNs_eq_some h
      rw [nsSegs_of_some h]
      obtain ⟨z, zs, hz⟩ := nsSegs_cons e
      have helen : e.length ≤ n := by
        have := splitRootNs_some_length h
        omega
      have helast : e.getLast? ≠ some ':' := by
        intro hcl
        apply hlast
        rw [hs, show x ++ ':' :: e = (x ++ [':']) ++ e by simp,
          getLast?_append_of_ne_nil _ _ hne]
        exact hcl
      rw [hz]
      show x ++ ':' :: joinSep ':' (z :: zs) = s
      rw [← hz, ih e helen hne helast]
      exact hs.symm

/-- Validity in propositional form. -/
theorem nsValid_cases {s : PyStr} (hs : nsValid s = true) :
    s = [':'] ∨ (s ≠ [] ∧ s.getLast? ≠ some ':') := by
  by_cases h1 : s = [':']
  · exact Or.inl h1
  · right
    simp only [nsValid, h1, Bool.or_eq_true, decide_eq_true_eq, Bool.and_eq_true,
      Bool.not_eq_true', decide_eq_false_iff_not, false_or] at hs
    exact ⟨hs.1.1.1, by simp [hs.2]⟩

/-- The segment-name stream determines the canonical string. -/
theorem nsSegs_inj {a b : PyStr} (ha : nsValid a = true) (hb : nsValid b = true)
    (h : nsSegs a = nsSegs b) : a = b := by
  rcases nsValid_cases ha with h1 | ⟨h1, h2⟩ <;> rcases nsValid_cases hb with h3 | ⟨h3, h4⟩
  · rw [h1, h3]
  · subst h1
    have hj := joinSep_nsSegs b.length b (le_refl _) h3 h4
    rw [← h] at hj
    have : joinSep ':' (nsSegs ([':'] : PyStr)) = [] := by decide
    rw [this] at hj
    exact absurd hj.symm h3
  · subst h3
    have hj := joinSep_nsSegs a.length a (le_refl _) h1 h2
    rw [h] at hj
    have : joinSep ':' (nsSegs ([':'] : PyStr)) = [] := by decide
    rw [this] at hj
    exact absurd hj.symm h1
  · have hja := joinSep_nsSegs a.length a (le_refl _) h1 h2
    have hjb := joinSep_nsSegs b.length b (le_refl _) h3 h4
    rw [← hja, ← hjb, h]

/-- C7: `Namespace.__cmp__` is a strict total order on `Namespace`
values: it returns `.eq` exactly at string equality (so exactly one of
`a < b`, `a == b`, `a > b` holds), `<` and `>` are converses, the order
is transitive, comparison proceeds segment-by-segment from the root
(lexicographically over the `split_root` segment stream), and every
namespace precedes each of its proper extensions. -/
theorem C7_namespace_strict_total_order (a b c : PyStr)
    (ha : nsValid a = true) (hb : nsValid b = true) (_hc : nsValid c = true) :
    (nsCmp a b = .eq ↔ a = b) ∧
    (nsCmp a b = .lt ↔ nsCmp b a = .gt) ∧
    (nsCmp a b = .lt → nsCmp b c = .lt → nsCmp a c = .lt) ∧
    nsCmp a b = lexCmp strCmpPy (nsSegs a) (nsSegs b) ∧
    (∀ m, m ≠ [] → nsSegs c = nsSegs a ++ m → nsCmp a c = .lt) := by
  refine ⟨?_, ?_, ?_, nsCmp_eq_lex a b, ?_⟩
  · rw [nsCmp_eq_lex, lexCmp_eq_iff strCmp_eq_iff]
    constructor
    · exact nsSegs_inj ha hb
    · intro h
      rw [h]
  · rw [nsCmp_eq_lex, nsCmp_eq_lex]
    exact lexCmp_lt_gt strCmp_eq_iff strCmp_lt_gt _ _
  · rw [nsCmp_eq_lex, nsCmp_eq_lex, nsCmp_eq_lex]
    exact lexCmp_trans strCmp_eq_iff (fun _ _ _ hu hv => strCmp_trans hu hv) _ _ _
  · intro m hm hseg
    rw [nsCmp_eq_lex, hseg]
    exact lexCmp_append_self strCmp_eq_iff _ _ hm

/-- C7 witness: transitivity and the prefix-precedes-extension law at
concrete namespaces. -/
theorem C7_namespace_strict_total_order_witness :
    nsCmp (pystr ":a") (pystr ":c") = .lt ∧ nsCmp (pystr "a:b") (pystr "a:b:x") = .lt :=
  ⟨(C7_namespace_strict_total_order (pystr ":a") (pystr ":b") (pystr ":c")
      (by decide) (by decide) (by decide)).2.2.1 (by decide) (by decide),
   (C7_namespace_strict_total_order (pystr "a:b") (pystr "a:b") (pystr "a:b:x")
      (by decide) (by decide) (by decide)).2.2.2.2 [pystr "x"] (by decide) (by decide)⟩

/-! ### Memoised reads never change the canonical string -/

theorem nsStrRead_of_val {o : NsObj} {t : PyStr} (h : o.ns = .val t) : nsStrRead o = t := by
  simp [nsStrRead, h]

theorem nsParentStep_ns (o : NsObj) : (nsParentStep o).ns = o.ns := by
  unfold nsParentStep
  cases hp : o.parent with
  | val v => rfl
  | ph =>
    cases hns : o.ns with
    | ph => exact hns
    | val s =>
      rcases hr : rsplitLast ':' s with _ | ⟨pre, nm⟩ <;> simp [hr]

theorem nsSplitRootStep_ns {o : NsObj} {t : PyStr} (h : o.ns = .val t) :
    (nsSplitRootStep o).ns = .val t := by
  unfold nsSplitRootStep
  cases he : o.endF with
  | val v => exact h
  | ph =>
    have hs : nsStrRead o = t := nsStrRead_of_val h
    rcases hsp : splitOnceChar ':' (nsStrRead o) with ⟨x, _ | e⟩ <;>
      rw [hs] at hsp <;> simp [hsp, hs]

theorem nsStep_ns_val {o : NsObj} {t : PyStr} (h : o.ns = .val t) :
    ∀ op, (nsStep o op).ns = .val t := by
  intro op
  cases op with
  | strO => simp [nsStep, nsStrStep, nsStrRead_of_val h]
  | nameO =>
    show (nsNameStep o).ns = .val t
    unfold nsNameStep
    cases hn : o.name with
    | val v => exact h
    | ph => rw [nsParentStep_ns]; exact h
  | parentO => exact (nsParentStep_ns o).trans h
  | depthO =>
    show (nsDepthStep o).ns = .val t
    unfold nsDepthStep
    by_cases hd : o.depth < 0 <;> simp [hd, h]
  | hierO => exact (nsParentStep_ns o).trans h
  | splitO => exact (nsParentStep_ns o).trans h
  | splitRootO => exact nsSplitRootStep_ns h

theorem nsRun_ns_val {o : NsObj} {t : PyStr} (h : o.ns = .val t) (ops : List NsOp) :
    (nsRun o ops).ns = .val t := by
  induction ops generalizing o with
  | nil => exact h
  | cons op rest ih => exact ih (nsStep_ns_val h op)

/-- C10: a `Namespace` constructed from a valid string has its canonical
string fixed at construction: any sequence of derived-attribute reads
(`name`, `parent`, `depth`, `hierarchy`, `split`, `split_root`, `str`)
only populates memo fields and never changes what `str()` returns. -/
theorem C10_lazy_reads_preserve_str (s : PyStr) (o : NsObj) (ho : nsObjOf s = .ok o)
    (ops : List NsOp) :
    nsStrRead (nsRun o ops) = nsStrRead o ∧
    nsStrRead o = (if s = [] then [':'] else s) := by
  have hns : o.ns = .val (if s = [] then [':'] else s) := by
    unfold nsObjOf at ho
    by_cases h0 : s = []
    · simp [h0] at ho
      rw [← ho]
      simp [h0, nsRootObj]
    · by_cases hv : assertValidityOk s
      · simp [h0, hv] at ho
        rw [← ho]
        simp [h0]
      · simp [h0, hv] at ho
  exact ⟨(nsStrRead_of_val (nsRun_ns_val hns ops)).trans (nsStrRead_of_val hns).symm,
    nsStrRead_of_val hns⟩

/-- C10 witness: a concrete read sequence over `Namespace(":a:b")`. -/
theorem C10_lazy_reads_preserve_str_witness :
    nsStrRead (nsRun ⟨.val (pystr ":a:b"), .ph, .ph, .ph, .ph, -1⟩
        [.parentO, .splitRootO, .nameO, .depthO, .hierO, .splitO, .strO, .splitRootO,
         .parentO, .depthO]) =
      nsStrRead ⟨.val (pystr ":a:b"), .ph, .ph, .ph, .ph, -1⟩ ∧
    nsStrRead ⟨.val (pystr ":a:b"), .ph, .ph, .ph, .ph, -1⟩ =
      (if pystr ":a:b" = [] then [':'] else pystr ":a:b") :=
  C10_lazy_reads_preserve_str (pystr ":a:b") ⟨.val (pystr ":a:b"), .ph, .ph, .ph, .ph, -1⟩
    (by decide)
    [.parentO, .splitRootO, .nameO, .depthO, .hierO, .splitO, .strO, .splitRootO,
     .parentO, .depthO]

end PyPhil
